import Mathlib

/-!
Verification of the `MutableBuffer` subsystem (src/src/buffer/mutable.rs) of the
arrow2 repository.  The Rust code is shallowly embedded: a buffer is a record of
an abstract element store, a logical length and a capacity (both counted in
elements); the element byte size `size_of::<T>()` is passed explicitly as a
parameter `s`.  Uninitialized / unallocated slots are `none`.
-/

namespace Arrow2

/-- Modelled from the spec: `util::round_upto_multiple_of_64` is referenced by
mutable.rs but its definition (src/util) is not among the provided sources; the
spec (§4.2, §8) describes it as rounding a byte count up to the nearest multiple
of 64. -/
def round_upto_multiple_of_64 (n : Nat) : Nat :=
  (n + 63) / 64 * 64

/-- Embeds `capacity_multiple_of_64::<T>` (mutable.rs lines 15-18): converts an
element count to bytes, rounds the byte count up to a multiple of 64, and
converts back to elements.  `s` stands for `size_of::<T>()`. -/
def capacity_multiple_of_64 (s capacity : Nat) : Nat :=
  round_upto_multiple_of_64 (capacity * s) / s

/-- State of a `MutableBuffer<T>` (mutable.rs lines 34-41): an abstract element
store indexed by slot (`none` meaning uninitialized or unallocated), the logical
length `len` and the allocated `capacity`, both in elements. -/
structure MutableBuffer (T : Type) where
  mem : Nat → Option T
  len : Nat
  capacity : Nat

/-- Writing one element at slot `i`. -/
def writeAt {T : Type} (m : Nat → Option T) (i : Nat) (v : T) : Nat → Option T :=
  fun j => if j = i then some v else m j

/-- Writing the elements of `xs` consecutively starting at slot `base`
(models a `copy_nonoverlapping` / sequential `ptr::write` loop). -/
def writeSeq {T : Type} (m : Nat → Option T) (base : Nat) : List T → Nat → Option T
  | [] => m
  | x :: xs => writeSeq (writeAt m base x) (base + 1) xs

/-- Writing `count` copies of `v` starting at slot `base` (models the fill loop
of `resize`, mutable.rs lines 131-138). -/
def writeRange {T : Type} (m : Nat → Option T) (base count : Nat) (v : T) : Nat → Option T :=
  fun j => if base ≤ j ∧ j < base + count then some v else m j

/-- The initialized prefix of a buffer, as read through `Deref` (mutable.rs
lines 393-399): the first `len` slots of the store. -/
def reads {T : Type} (b : MutableBuffer T) : List (Option T) :=
  (List.range b.len).map b.mem

namespace MutableBuffer

/-- Embeds `MutableBuffer::new` (mutable.rs lines 44-52): capacity 0, no
backing allocation. -/
def new {T : Type} : MutableBuffer T :=
  { mem := fun _ => none, len := 0, capacity := 0 }

/-- Embeds `MutableBuffer::with_capacity` (mutable.rs lines 55-64): the code
computes `round_upto_multiple_of_64(capacity / size_of::<T>())` and allocates
that many (uninitialized) elements.  `alloc::allocate_aligned` is modelled from
the spec (§4.1): fresh uninitialized memory. -/
def with_capacity (T : Type) (s n : Nat) : MutableBuffer T :=
  { mem := fun _ => none, len := 0, capacity := round_upto_multiple_of_64 (n / s) }

/-- Embeds `MutableBuffer::from_len_zeroed` (mutable.rs lines 77-85):
capacity `capacity_multiple_of_64::<T>(len)`, zero-filled allocation
(`alloc::allocate_aligned_zeroed`, modelled from the spec §4.1), length `len`. -/
def from_len_zeroed (s n : Nat) : MutableBuffer Nat :=
  { mem := fun i => if i < capacity_multiple_of_64 s n then some 0 else none
    len := n
    capacity := capacity_multiple_of_64 s n }

/-- Embeds the free function `reallocate` (mutable.rs lines 253-262): the new
capacity is `max(capacity_multiple_of_64(new_capacity), old_capacity * 2)`;
`alloc::reallocate` is modelled from the spec (§4.1): it preserves the first
`min(old_capacity, new_capacity)` elements, the rest is uninitialized. -/
def reallocate {T : Type} (s : Nat) (mem : Nat → Option T) (old_capacity new_capacity : Nat) :
    (Nat → Option T) × Nat :=
  let nc := max (capacity_multiple_of_64 s new_capacity) (old_capacity * 2)
  (fun i => if i < min old_capacity nc then mem i else none, nc)

/-- Embeds `MutableBuffer::reserve` (mutable.rs lines 100-113): reallocates iff
`len + additional > capacity`. -/
def reserve {T : Type} (s : Nat) (b : MutableBuffer T) (additional : Nat) : MutableBuffer T :=
  if b.len + additional > b.capacity then
    let r := reallocate s b.mem b.capacity (b.len + additional)
    { mem := r.1, len := b.len, capacity := r.2 }
  else b

/-- Embeds `MutableBuffer::resize` (mutable.rs lines 126-142): when growing,
reserves the delta and writes `v` into every newly exposed slot; the final
assignment `self.len = new_len` also covers the truncating case. -/
def resize {T : Type} (s : Nat) (b : MutableBuffer T) (new_len : Nat) (v : T) : MutableBuffer T :=
  if b.len < new_len then
    let b1 := reserve s b (new_len - b.len)
    { mem := writeRange b1.mem b.len (new_len - b.len) v, len := new_len, capacity := b1.capacity }
  else
    { b with len := new_len }

/-- Embeds `MutableBuffer::clear` (mutable.rs lines 165-167). -/
def clear {T : Type} (b : MutableBuffer T) : MutableBuffer T :=
  { b with len := 0 }

/-- Embeds `MutableBuffer::push` (mutable.rs lines 221-229): reserve one slot,
write at `len`, increment `len`. -/
def push {T : Type} (s : Nat) (b : MutableBuffer T) (v : T) : MutableBuffer T :=
  let b1 := reserve s b 1
  { mem := writeAt b1.mem b1.len v, len := b1.len + 1, capacity := b1.capacity }

/-- Embeds `MutableBuffer::push_unchecked` (mutable.rs lines 234-239): write at
`len` with no capacity check. -/
def push_unchecked {T : Type} (b : MutableBuffer T) (v : T) : MutableBuffer T :=
  { mem := writeAt b.mem b.len v, len := b.len + 1, capacity := b.capacity }

/-- Embeds `MutableBuffer::set_len` (mutable.rs lines 244-247): the code
asserts `len <= capacity` (panic modelled as `none`) and then assigns the
length without touching memory or capacity. -/
def set_len {T : Type} (b : MutableBuffer T) (n : Nat) : Option (MutableBuffer T) :=
  if n ≤ b.capacity then some { b with len := n } else none

/-- Embeds `MutableBuffer::extend_from_slice` (mutable.rs lines 201-211):
reserve `items.len()` slots, bulk-copy, advance `len`. -/
def extend_from_slice {T : Type} (s : Nat) (b : MutableBuffer T) (xs : List T) : MutableBuffer T :=
  let b1 := reserve s b xs.length
  { mem := writeSeq b1.mem b1.len xs, len := b1.len + xs.length, capacity := b1.capacity }

/-- Embeds `MutableBuffer::extend_from_iter` (mutable.rs lines 274-298): reserve
for the iterator's lower size-hint, write directly while `local_len + 1 <=
capacity` (committing the local length on exit), then fall back to `push` for
the remaining items. -/
def extend_from_iter {T : Type} (s : Nat) (b : MutableBuffer T) (lower : Nat) (xs : List T) :
    MutableBuffer T :=
  let b1 := reserve s b lower
  let k := min xs.length (b1.capacity - b1.len)
  let fast : MutableBuffer T :=
    { mem := writeSeq b1.mem b1.len (xs.take k), len := b1.len + k, capacity := b1.capacity }
  (xs.drop k).foldl (fun acc x => push s acc x) fast

/-- Embeds `FromIterator<T> for MutableBuffer<T>` (mutable.rs lines 370-391):
first item handled specially with `with_capacity(lower.saturating_add(1))` and a
raw write at slot 0, then `extend_from_iter` for the rest.  The iterator is
modelled as a list reporting its exact remaining length as lower bound. -/
def from_iter {T : Type} (s : Nat) (xs : List T) : MutableBuffer T :=
  match xs with
  | [] => new
  | x :: rest =>
    let b0 := with_capacity T s (rest.length + 1)
    let b1 : MutableBuffer T := { mem := writeAt b0.mem 0 x, len := 1, capacity := b0.capacity }
    extend_from_iter s b1 rest.length rest

/-- Embeds `MutableBuffer::from_trusted_len_iter` (mutable.rs lines 317-337):
allocate `with_capacity(upper)`, write every produced item consecutively from
slot 0 with no capacity re-check, assert that the number of items written
equals `upper` (assert failure modelled as `none`), then set `len = upper`. -/
def from_trusted_len_iter {T : Type} (s upper : Nat) (xs : List T) : Option (MutableBuffer T) :=
  if xs.length = upper then
    some { mem := writeSeq (with_capacity T s upper).mem 0 xs, len := upper
           capacity := (with_capacity T s upper).capacity }
  else none

/-- First-error collection of a sequence of results: models the
`for item in iterator { std::ptr::write(dst, item?); ... }` loop of
`try_from_trusted_len_iter` (mutable.rs lines 355-359), which stops at the
first `Err` and otherwise gathers the `Ok` payloads in order. -/
def collectOk {E T : Type} : List (Except E T) → Except E (List T)
  | [] => .ok []
  | .error e :: _ => .error e
  | .ok v :: rest =>
    match collectOk rest with
    | .error e => .error e
    | .ok vs => .ok (v :: vs)

/-- Embeds `MutableBuffer::try_from_trusted_len_iter` (mutable.rs lines
345-367): like `from_trusted_len_iter` but the loop returns the first error
produced by the source (discarding the partially written buffer); on full
success the written-count assertion runs (assert failure modelled as the outer
`none`) and the buffer is returned. -/
def try_from_trusted_len_iter {E T : Type} (s upper : Nat) (xs : List (Except E T)) :
    Option (Except E (MutableBuffer T)) :=
  match collectOk xs with
  | .error e => some (.error e)
  | .ok vs =>
    if vs.length = upper then
      some (.ok { mem := writeSeq (with_capacity T s upper).mem 0 vs, len := upper
                  capacity := (with_capacity T s upper).capacity })
    else none

/-- Embeds the inner bit-collection while-loop of `FromIterator<bool>`
(mutable.rs lines 475-486): the accumulator gains the current mask for each
`true`, the mask doubles each step.  The 8-iteration limit enforced by the
`u8` mask overflowing to zero is expressed by callers passing `bs.take 8`. -/
def packByte : List Bool → Nat → Nat
  | [], _ => 0
  | v :: bs, mask => (if v then mask else 0) + packByte bs (mask * 2)

/-- Embeds the capacity check before each byte append in `FromIterator<bool>`
(mutable.rs lines 493-500): when the buffer is full, reserve one byte plus the
remaining lower size-hint converted (rounding up) to bytes; `rest` is the
iterator state after the inner loop consumed its bits. -/
def boolStep (b : MutableBuffer Nat) (rest : List Bool) : MutableBuffer Nat :=
  if b.len = b.capacity then reserve 1 b (1 + (rest.length + 7) / 8) else b

/-- Embeds the outer loop of `FromIterator<bool> for MutableBuffer<u8>`
(mutable.rs lines 469-507): collect up to 8 booleans into a byte; stop without
appending when the iterator was exhausted before providing any bit
(`exhausted && mask == 1`, i.e. the list was empty); otherwise ensure capacity
(`boolStep`), append the byte with `push_unchecked`, and stop when the inner
loop was exhausted (fewer than 8 bits collected). -/
def fromIterBoolLoop (b : MutableBuffer Nat) (bs : List Bool) : MutableBuffer Nat :=
  if _h : bs.isEmpty then b
  else
    if bs.length < 8 then push_unchecked (boolStep b (bs.drop 8)) (packByte (bs.take 8) 1)
    else fromIterBoolLoop (push_unchecked (boolStep b (bs.drop 8)) (packByte (bs.take 8) 1))
           (bs.drop 8)
termination_by bs.length
decreasing_by
  simp only [List.length_drop]
  cases bs with
  | nil => simp at _h
  | cons v t => simp only [List.length_cons]; omega

/-- Embeds `FromIterator<bool> for MutableBuffer<u8>` (mutable.rs lines
458-510): pre-allocate from the lower size-hint rounded up to whole bytes
(the iterator is modelled as a list reporting its exact length), then run the
packing loop.  Element byte width is 1. -/
def from_iter_bool (bs : List Bool) : MutableBuffer Nat :=
  fromIterBoolLoop (with_capacity Nat 1 ((bs.length + 7) / 8)) bs

end MutableBuffer

/-- The first error of a sequence of results, i.e. the failure that
`try_from_trusted_len_iter`'s loop would hit first. -/
def firstErr {E T : Type} : List (Except E T) → Option E
  | [] => none
  | .error e :: _ => some e
  | .ok _ :: rest => firstErr rest

/-- The payload of a successful result. -/
def okPayload {E T : Type} : Except E T → Option T
  | .ok v => some v
  | .error _ => none

/-- States reachable through the constructors and mutating operations of
`MutableBuffer` (mutable.rs), indexed by the element byte width `s`; element
values are abstracted to `Nat`.  The trusted-length constructors contribute
only when they return (their assert passes), `set_len` only when its assert
passes, and the bit-packing constructor fixes `s = 1` (`u8`). -/
inductive Reachable : Nat → MutableBuffer Nat → Prop where
  | new (s : Nat) : Reachable s MutableBuffer.new
  | with_capacity (s n : Nat) : Reachable s (MutableBuffer.with_capacity Nat s n)
  | from_len_zeroed (s n : Nat) : Reachable s (MutableBuffer.from_len_zeroed s n)
  | from_iter (s : Nat) (xs : List Nat) : Reachable s (MutableBuffer.from_iter s xs)
  | from_trusted (s upper : Nat) (xs : List Nat) (b : MutableBuffer Nat) :
      MutableBuffer.from_trusted_len_iter s upper xs = some b → Reachable s b
  | try_from_trusted (s upper : Nat) (xs : List (Except String Nat)) (b : MutableBuffer Nat) :
      MutableBuffer.try_from_trusted_len_iter s upper xs = some (.ok b) → Reachable s b
  | from_iter_bool (bs : List Bool) : Reachable 1 (MutableBuffer.from_iter_bool bs)
  | reserve (s : Nat) (b : MutableBuffer Nat) (a : Nat) :
      Reachable s b → Reachable s (MutableBuffer.reserve s b a)
  | resize (s : Nat) (b : MutableBuffer Nat) (n v : Nat) :
      Reachable s b → Reachable s (MutableBuffer.resize s b n v)
  | push (s : Nat) (b : MutableBuffer Nat) (v : Nat) :
      Reachable s b → Reachable s (MutableBuffer.push s b v)
  | extend_from_slice (s : Nat) (b : MutableBuffer Nat) (xs : List Nat) :
      Reachable s b → Reachable s (MutableBuffer.extend_from_slice s b xs)
  | extend_from_iter (s : Nat) (b : MutableBuffer Nat) (lower : Nat) (xs : List Nat) :
      Reachable s b → Reachable s (MutableBuffer.extend_from_iter s b lower xs)
  | clear (s : Nat) (b : MutableBuffer Nat) : Reachable s b → Reachable s (MutableBuffer.clear b)
  | set_len (s : Nat) (b b' : MutableBuffer Nat) (n : Nat) :
      Reachable s b → MutableBuffer.set_len b n = some b' → Reachable s b'

/-- Modelled from the spec: the `Deallocation` tagged variant (§3) lives in
buffer/bytes.rs, which is not among the provided sources — allocator-owned with
a recorded capacity, or externally owned. -/
inductive Deallocation where
  | native (capacity : Nat)
  | foreignOwned
deriving DecidableEq

/-- Modelled from the spec: `Bytes<T>` (§3), the immutable buffer's backing
record of (pointer, length, deallocation strategy), from buffer/bytes.rs which
is not among the provided sources.  The pointer is represented by the element
store it points at. -/
structure Bytes (T : Type) where
  data : Nat → Option T
  len : Nat
  deallocation : Deallocation

/-- Embeds `From<MutableBuffer<T>> for Bytes<T>` (mutable.rs lines 442-455):
transfers the pointer and length verbatim and records
`Deallocation::Native(capacity)`; the `mem::forget` disarming the destructor
has no observable effect on the resulting value. -/
def freeze {T : Type} (b : MutableBuffer T) : Bytes T :=
  { data := b.mem, len := b.len, deallocation := .native b.capacity }

/-- Little-endian byte serialization of one element of byte width `s`. -/
def leBytes (s v : Nat) : List Nat :=
  (List.range s).map fun k => v / 256 ^ k % 256

/-- The raw little-endian bytes of a frozen buffer of elements of width `s`. -/
def bytesLE (s : Nat) (bt : Bytes Nat) : List Nat :=
  (((List.range bt.len).map fun i => (bt.data i).getD 0).map (leBytes s)).flatten

open MutableBuffer

/-- C1: the module's own doctest input (mutable.rs lines 304-309), a 1-element
iterator of `u32` (`s = 4`), makes `from_trusted_len_iter` produce a buffer
with `len = 1` and `capacity = 0`, violating the documented invariant
`len <= capacity` (mutable.rs lines 38, 151, 158). -/
theorem c1_from_trusted_len_iter_violates_len_le_capacity :
    ((from_trusted_len_iter 4 1 [(2 : Nat)]).map fun b => (b.len, b.capacity)) = some (1, 0) ∧
    ∃ b, from_trusted_len_iter 4 1 [(2 : Nat)] = some b ∧ ¬ b.len ≤ b.capacity := by
  exact ⟨by decide, ⟨_, rfl, by decide⟩⟩

/-- C2: for `u32` (`s = 4`) and a trusted iterator of 100 elements,
`from_trusted_len_iter` allocates `with_capacity(100)` =
`round_upto_multiple_of_64(100 / 4)` = 64 elements — insufficient for the 100
elements it then writes without any capacity re-check, so writes land outside
the allocation; the resulting buffer reports `len = 100 > capacity = 64`. -/
theorem c2_from_trusted_len_iter_under_allocates :
    (with_capacity Nat 4 100).capacity = 64 ∧
    ¬ (100 ≤ (with_capacity Nat 4 100).capacity) ∧
    ((from_trusted_len_iter 4 100 (List.replicate 100 (7 : Nat))).map
        fun b => (b.len, b.capacity)) = some (100, 64) := by
  refine ⟨by decide, by decide, by decide⟩

/-- C3: `with_capacity` divides the hint by the element size before rounding,
so for `u32` (`s = 4`) the hint 3 yields capacity 0 (0 bytes, fewer than 3) and
the hint 257 yields 64 elements = 256 bytes, fewer than 257; moreover for the
hint 4 the element capacity is 64, not the 64-byte-policy value
`capacity_multiple_of_64 4 1 = 16`. -/
theorem c3_with_capacity_under_allocates :
    (with_capacity Nat 4 3).capacity * 4 = 0 ∧
    (with_capacity Nat 4 257).capacity * 4 = 256 ∧ 256 < 257 ∧
    (with_capacity Nat 4 4).capacity = 64 ∧ capacity_multiple_of_64 4 (4 / 4) = 16 := by
  refine ⟨by decide, by decide, by decide, by decide, by decide⟩

/-- Rounding up to a multiple of 64 never decreases the argument. -/
theorem le_round_upto_multiple_of_64 (n : Nat) : n ≤ round_upto_multiple_of_64 n := by
  unfold round_upto_multiple_of_64
  have h1 := Nat.div_add_mod (n + 63) 64
  have h2 : (n + 63) % 64 < 64 := Nat.mod_lt _ (by norm_num)
  omega

/-- The round-up helper always produces a multiple of 64. -/
theorem dvd_round_upto_multiple_of_64 (n : Nat) : 64 ∣ round_upto_multiple_of_64 n :=
  Dvd.intro_left _ rfl

/-- With a positive element size, `capacity_multiple_of_64` never decreases the
element count. -/
theorem le_capacity_multiple_of_64 (s n : Nat) (hs : 0 < s) :
    n ≤ capacity_multiple_of_64 s n := by
  unfold capacity_multiple_of_64
  calc n = n * s / s := by rw [Nat.mul_div_cancel _ hs]
    _ ≤ round_upto_multiple_of_64 (n * s) / s :=
        Nat.div_le_div_right (le_round_upto_multiple_of_64 _)

/-- When the element size divides 64, the byte size of the rounded capacity is
exactly the 64-rounded byte count. -/
theorem capacity_multiple_of_64_mul (s n : Nat) (hs : s ∣ 64) :
    capacity_multiple_of_64 s n * s = round_upto_multiple_of_64 (n * s) := by
  unfold capacity_multiple_of_64
  exact Nat.div_mul_cancel (hs.trans (dvd_round_upto_multiple_of_64 _))

namespace MutableBuffer

/-- The `reserve` operation never changes the logical length. -/
theorem reserve_len {T : Type} (s : Nat) (b : MutableBuffer T) (a : Nat) :
    (reserve s b a).len = b.len := by
  unfold reserve
  split <;> rfl

/-- The `reserve` operation never shrinks the capacity. -/
theorem capacity_le_reserve_capacity {T : Type} (s : Nat) (b : MutableBuffer T) (a : Nat) :
    b.capacity ≤ (reserve s b a).capacity := by
  unfold reserve reallocate
  split
  · exact le_trans (by omega) (Nat.le_max_right _ (b.capacity * 2))
  · exact le_refl _

/-- After `reserve s b a`, the capacity accommodates `len + a` elements
(mutable.rs lines 87-88: "Ensures that this buffer has at least
`self.len + additional` bytes"). -/
theorem reserve_capacity_ge {T : Type} (s : Nat) (b : MutableBuffer T) (a : Nat) (hs : 0 < s) :
    b.len + a ≤ (reserve s b a).capacity := by
  unfold reserve reallocate
  split
  · exact le_trans (le_capacity_multiple_of_64 s _ hs) (Nat.le_max_left _ _)
  · omega

/-- The `reserve` operation preserves every slot below the old capacity. -/
theorem reserve_mem {T : Type} (s : Nat) (b : MutableBuffer T) (a : Nat) (i : Nat)
    (hi : i < b.capacity) : (reserve s b a).mem i = b.mem i := by
  unfold reserve reallocate
  split
  · have hle : b.capacity ≤ max (capacity_multiple_of_64 s (b.len + a)) (b.capacity * 2) :=
      le_trans (by omega) (Nat.le_max_right _ _)
    simp only []
    rw [if_pos]
    omega
  · rfl

/-- When no reallocation is needed, `reserve` returns the buffer unchanged. -/
theorem reserve_eq_of_le {T : Type} (s : Nat) (b : MutableBuffer T) (a : Nat)
    (h : b.len + a ≤ b.capacity) : reserve s b a = b := by
  unfold reserve
  rw [if_neg]
  omega

/-- Shrinking (or keeping) the length via `resize` only updates the length
field (mutable.rs lines 140-141). -/
theorem resize_shrink {T : Type} (s : Nat) (b : MutableBuffer T) (new_len : Nat) (v : T)
    (h : new_len ≤ b.len) : resize s b new_len v = { b with len := new_len } := by
  unfold resize
  rw [if_neg (by omega)]

/-- Growing via `resize` within the existing capacity performs no reallocation:
it fills the newly exposed slots with `v` and sets the length. -/
theorem resize_grow_no_realloc {T : Type} (s : Nat) (b : MutableBuffer T) (new_len : Nat) (v : T)
    (h1 : b.len < new_len) (h2 : new_len ≤ b.capacity) :
    resize s b new_len v =
      { mem := writeRange b.mem b.len (new_len - b.len) v
        len := new_len
        capacity := b.capacity } := by
  unfold resize
  rw [if_pos h1, reserve_eq_of_le s b (new_len - b.len) (by omega)]

end MutableBuffer

/-- C5: `reserve(additional)` leaves the buffer entirely unchanged when
`len + additional <= capacity`; otherwise it reallocates to capacity
`max(capacity_multiple_of_64(len + additional), capacity * 2)`.  In either case
the length is unchanged, the first `len` elements are preserved, and
`capacity >= len + additional` holds afterwards. -/
theorem c5_reserve_spec {T : Type} (s a : Nat) (b : MutableBuffer T)
    (hs : 0 < s) (hlc : b.len ≤ b.capacity) :
    (b.len + a ≤ b.capacity → reserve s b a = b) ∧
    (b.capacity < b.len + a →
      (reserve s b a).capacity =
        max (capacity_multiple_of_64 s (b.len + a)) (b.capacity * 2)) ∧
    b.len + a ≤ (reserve s b a).capacity ∧
    (reserve s b a).len = b.len ∧
    ∀ i, i < b.len → (reserve s b a).mem i = b.mem i := by
  refine ⟨fun h => reserve_eq_of_le s b a h, fun h => ?_, reserve_capacity_ge s b a hs,
    reserve_len s b a, fun i hi => reserve_mem s b a i (lt_of_lt_of_le hi hlc)⟩
  unfold MutableBuffer.reserve MutableBuffer.reallocate
  rw [if_pos (by omega)]

/-- Witness for C5: a concrete reallocating call on a `u32` buffer (`s = 4`)
holding three elements. -/
theorem c5_reserve_spec_witness :
    (0 < 4 ∧ (extend_from_slice 4 MutableBuffer.new [(1 : Nat), 2, 3]).len ≤
        (extend_from_slice 4 MutableBuffer.new [(1 : Nat), 2, 3]).capacity) ∧
    ((reserve 4 (extend_from_slice 4 MutableBuffer.new [(1 : Nat), 2, 3]) 20).capacity = 32 ∧
      reads (reserve 4 (extend_from_slice 4 MutableBuffer.new [(1 : Nat), 2, 3]) 20) =
        [some 1, some 2, some 3]) := by
  constructor
  · exact ⟨by decide, by decide⟩
  · constructor
    · have h := (c5_reserve_spec 4 20 (extend_from_slice 4 MutableBuffer.new [(1 : Nat), 2, 3])
        (by decide) (by decide)).2.1 (by decide)
      rw [h]; decide
    · have h := (c5_reserve_spec 4 20 (extend_from_slice 4 MutableBuffer.new [(1 : Nat), 2, 3])
        (by decide) (by decide)).2.2.2.2
      have hl := (c5_reserve_spec 4 20 (extend_from_slice 4 MutableBuffer.new [(1 : Nat), 2, 3])
        (by decide) (by decide)).2.2.2.1
      unfold Arrow2.reads
      rw [hl]
      have h0 := h 0 (by decide)
      have h1 := h 1 (by decide)
      have h2 := h 2 (by decide)
      simp only [List.range, List.range.loop, List.map]
      rw [h0, h1, h2]
      decide

/-- C6: freezing transfers the store, the element length and an
allocator-owned (`native`) deallocation carrying the capacity, verbatim; in
particular freezing a `u32` buffer (`s = 4`) built by
`extend_from_slice(&[2, 0])` yields the little-endian raw bytes
`[2,0,0,0,0,0,0,0]` and element length 2. -/
theorem c6_freeze_zero_copy :
    (∀ (T : Type) (b : MutableBuffer T),
      (freeze b).data = b.mem ∧ (freeze b).len = b.len ∧
      (freeze b).deallocation = Deallocation.native b.capacity) ∧
    bytesLE 4 (freeze (extend_from_slice 4 MutableBuffer.new [(2 : Nat), 0])) =
      [2, 0, 0, 0, 0, 0, 0, 0] ∧
    (freeze (extend_from_slice 4 MutableBuffer.new [(2 : Nat), 0])).len = 2 := by
  refine ⟨fun T b => ⟨rfl, rfl, rfl⟩, by decide, by decide⟩

/-- Witness for C6 at a concrete buffer. -/
theorem c6_freeze_zero_copy_witness :
    (freeze (push 4 MutableBuffer.new (5 : Nat))).deallocation = Deallocation.native 16 := by
  have h := (c6_freeze_zero_copy.1 Nat (push 4 MutableBuffer.new (5 : Nat))).2.2
  rw [h]
  decide

/-- C10: `set_len(n)` checks `n <= capacity` at runtime — succeeding with the
length set and memory and capacity untouched — and panics (modelled `none`)
when the check fails. -/
theorem c10_set_len_spec {T : Type} (b : MutableBuffer T) (n : Nat) :
    (n ≤ b.capacity →
      set_len b n = some { mem := b.mem, len := n, capacity := b.capacity }) ∧
    (b.capacity < n → set_len b n = none) := by
  constructor
  · intro h
    unfold MutableBuffer.set_len
    rw [if_pos h]
  · intro h
    unfold MutableBuffer.set_len
    rw [if_neg (by omega)]

/-- Witness for C10: a concrete passing check and a concrete panicking call. -/
theorem c10_set_len_spec_witness :
    (3 ≤ (with_capacity Nat 1 1).capacity ∧
      set_len (with_capacity Nat 1 1) 3 =
        some { mem := (with_capacity Nat 1 1).mem, len := 3
               capacity := (with_capacity Nat 1 1).capacity }) ∧
    ((with_capacity Nat 1 1).capacity < 100 ∧ set_len (with_capacity Nat 1 1) 100 = none) := by
  refine ⟨⟨by decide, (c10_set_len_spec (with_capacity Nat 1 1) 3).1 (by decide)⟩,
    ⟨by decide, (c10_set_len_spec (with_capacity Nat 1 1) 100).2 (by decide)⟩⟩

/-- C7 (amended): shrinking via `resize` only updates the length — capacity and
memory are untouched — but regrowing with `resize(L, fill)` writes `fill` into
every slot of `n..L`, so those positions expose the fill value afterwards,
while positions below `n` keep their previous contents. -/
theorem c7_resize_shrink_regrow_amended {T : Type} (s : Nat) (b : MutableBuffer T)
    (n : Nat) (v0 fill : T) (hn : n < b.len) (hlc : b.len ≤ b.capacity) :
    (resize s b n v0).mem = b.mem ∧
    (resize s b n v0).capacity = b.capacity ∧
    (resize s b n v0).len = n ∧
    (resize s (resize s b n v0) b.len fill).len = b.len ∧
    (∀ i, i < n → (resize s (resize s b n v0) b.len fill).mem i = b.mem i) ∧
    (∀ i, n ≤ i → i < b.len →
      (resize s (resize s b n v0) b.len fill).mem i = some fill) := by
  have hshrink : resize s b n v0 = { b with len := n } :=
    resize_shrink s b n v0 (le_of_lt hn)
  have hBlen : (resize s b n v0).len = n := by rw [hshrink]
  have hBmem : (resize s b n v0).mem = b.mem := by rw [hshrink]
  have hBcap : (resize s b n v0).capacity = b.capacity := by rw [hshrink]
  have hG : resize s (resize s b n v0) b.len fill =
      { mem := writeRange (resize s b n v0).mem (resize s b n v0).len
                 (b.len - (resize s b n v0).len) fill
        len := b.len
        capacity := (resize s b n v0).capacity } :=
    resize_grow_no_realloc s (resize s b n v0) b.len fill
      (by rw [hBlen]; exact hn) (by rw [hBcap]; exact hlc)
  refine ⟨hBmem, hBcap, hBlen, ?_, ?_, ?_⟩
  · rw [hG]
  · intro i hi
    rw [hG]
    show writeRange (resize s b n v0).mem (resize s b n v0).len
      (b.len - (resize s b n v0).len) fill i = b.mem i
    rw [hBmem, hBlen]
    unfold writeRange
    rw [if_neg (by omega)]
  · intro i hi1 hi2
    rw [hG]
    show writeRange (resize s b n v0).mem (resize s b n v0).len
      (b.len - (resize s b n v0).len) fill i = some fill
    rw [hBmem, hBlen]
    unfold writeRange
    rw [if_pos (by omega)]

/-- Witness for C7's amended statement: the counterexample configuration,
`[1,2,3]` shrunk to 1 and regrown to 3 with fill 9. -/
theorem c7_resize_shrink_regrow_amended_witness :
    (1 < (extend_from_slice 1 MutableBuffer.new [(1 : Nat), 2, 3]).len ∧
      (extend_from_slice 1 MutableBuffer.new [(1 : Nat), 2, 3]).len ≤
        (extend_from_slice 1 MutableBuffer.new [(1 : Nat), 2, 3]).capacity) ∧
    (resize 1 (resize 1 (extend_from_slice 1 MutableBuffer.new [(1 : Nat), 2, 3]) 1 0)
        (extend_from_slice 1 MutableBuffer.new [(1 : Nat), 2, 3]).len 9).mem 2 = some 9 := by
  refine ⟨⟨by decide, by decide⟩, ?_⟩
  exact (c7_resize_shrink_regrow_amended 1 (extend_from_slice 1 MutableBuffer.new [(1 : Nat), 2, 3])
    1 0 9 (by decide) (by decide)).2.2.2.2.2 2 (by decide) (by decide)

/-- C7 counterexample: on a `u8` buffer (`s = 1`) holding `[1, 2, 3]`,
`resize(1, 0)` followed by `resize(3, 9)` exposes the fill value 9 — not the
previously written 2 and 3 — at positions 1 and 2, because the growing branch
of `resize` writes the fill value into every newly exposed slot. -/
theorem c7_regrow_exposes_fill_counterexample :
    reads (resize 1 (resize 1 (extend_from_slice 1 MutableBuffer.new [1, 2, 3]) 1 0) 3 9) =
      [some 1, some 9, some 9] ∧
    reads (extend_from_slice 1 MutableBuffer.new [(1 : Nat), 2, 3]) =
      [some 1, some 2, some 3] := by
  refine ⟨by decide, by decide⟩

/-- Doubling the mask doubles the packed value. -/
theorem packByte_mul_two : ∀ (l : List Bool) (m : Nat),
    packByte l (m * 2) = 2 * packByte l m := by
  intro l
  induction l with
  | nil => intro m; rfl
  | cons v bs ih =>
    intro m
    show (if v then m * 2 else 0) + packByte bs (m * 2 * 2) = 2 * ((if v then m else 0) + packByte bs (m * 2))
    rw [ih (m * 2)]
    cases v
    all_goals simp
    all_goals ring

/-- Bit `i` of a byte packed at mask 1 is exactly the `i`-th boolean of the
collected list (false beyond its end, so trailing bits of a partial byte are
zero). -/
theorem packByte_one_bit : ∀ (l : List Bool) (i : Nat),
    packByte l 1 / 2 ^ i % 2 = if l.getD i false then 1 else 0 := by
  intro l
  induction l with
  | nil =>
    intro i
    show 0 / 2 ^ i % 2 = if ([] : List Bool).getD i false then 1 else 0
    simp [List.getD]
  | cons v bs ih =>
    intro i
    have h2 : packByte bs (1 * 2) = 2 * packByte bs 1 := packByte_mul_two bs 1
    show ((if v then 1 else 0) + packByte bs (1 * 2)) / 2 ^ i % 2 =
      if (v :: bs).getD i false then 1 else 0
    rw [h2]
    cases i with
    | zero =>
      rw [pow_zero, Nat.div_one, Nat.add_mul_mod_self_left]
      cases v <;> simp [List.getD]
    | succ i =>
      have hdiv : ((if v then 1 else 0) + 2 * packByte bs 1) / 2 = packByte bs 1 := by
        rw [Nat.add_mul_div_left _ _ (by norm_num : (0 : Nat) < 2)]
        cases v <;> simp
      rw [pow_succ', ← Nat.div_div_eq_div_mul, hdiv, ih i]
      cases bs <;> simp [List.getD]

/-- Indexing with a default into a `take` within range. -/
theorem getD_take {α : Type} : ∀ (l : List α) (k i : Nat) (d : α), i < k →
    (l.take k).getD i d = l.getD i d := by
  intro l
  induction l with
  | nil => intro k i d _; simp
  | cons x xs ih =>
    intro k i d h
    cases k with
    | zero => omega
    | succ k =>
      cases i with
      | zero => simp
      | succ i => simpa using ih k i d (by omega)

/-- Indexing with a default into a `drop`. -/
theorem getD_drop {α : Type} : ∀ (n : Nat) (l : List α) (i : Nat) (d : α),
    (l.drop n).getD i d = l.getD (n + i) d := by
  intro n
  induction n with
  | zero => intro l i d; simp
  | succ n ih =>
    intro l i d
    cases l with
    | nil => simp
    | cons x xs =>
      show (xs.drop n).getD i d = (x :: xs).getD (n + 1 + i) d
      rw [ih xs i d, show n + 1 + i = (n + i) + 1 from by omega]
      simp

namespace MutableBuffer

/-- The capacity allocated by `with_capacity` is a multiple of 64 elements,
hence its byte size is a multiple of 64 for any element width. -/
theorem with_capacity_cap_dvd (T : Type) (s n : Nat) :
    64 ∣ (with_capacity T s n).capacity * s :=
  (dvd_round_upto_multiple_of_64 _).mul_right s

/-- With an element width dividing 64, `capacity_multiple_of_64` produces a
64-byte-multiple allocation. -/
theorem cmo64_cap_dvd (s n : Nat) (hs : s ∣ 64) :
    64 ∣ capacity_multiple_of_64 s n * s := by
  rw [capacity_multiple_of_64_mul s n hs]
  exact dvd_round_upto_multiple_of_64 _

/-- The reallocation performed by `reserve` keeps the byte size a multiple of
64: the 64-rounded candidate is one by construction, and doubling preserves
divisibility. -/
theorem reserve_cap_dvd {T : Type} (s : Nat) (b : MutableBuffer T) (a : Nat)
    (hs : s ∣ 64) (ih : 64 ∣ b.capacity * s) : 64 ∣ (reserve s b a).capacity * s := by
  unfold reserve reallocate
  split
  · show 64 ∣ max (capacity_multiple_of_64 s (b.len + a)) (b.capacity * 2) * s
    rcases le_total (capacity_multiple_of_64 s (b.len + a)) (b.capacity * 2) with h | h
    · rw [Nat.max_eq_right h, show b.capacity * 2 * s = b.capacity * s * 2 from by ring]
      exact ih.mul_right 2
    · rw [Nat.max_eq_left h]
      exact cmo64_cap_dvd s _ hs
  · exact ih

/-- The pre-append capacity check never changes the length. -/
theorem boolStep_len (b : MutableBuffer Nat) (rest : List Bool) :
    (boolStep b rest).len = b.len := by
  unfold boolStep
  split
  · exact reserve_len 1 b _
  · rfl

/-- After the pre-append capacity check there is room for one more byte. -/
theorem boolStep_cap_ge (b : MutableBuffer Nat) (rest : List Bool) (hb : b.len ≤ b.capacity) :
    b.len + 1 ≤ (boolStep b rest).capacity := by
  unfold boolStep
  split
  · exact le_trans (by omega) (reserve_capacity_ge 1 b _ (by norm_num))
  · omega

/-- The pre-append capacity check preserves the initialized prefix. -/
theorem boolStep_mem (b : MutableBuffer Nat) (rest : List Bool) (i : Nat)
    (hi : i < b.len) (_hb : b.len ≤ b.capacity) : (boolStep b rest).mem i = b.mem i := by
  unfold boolStep
  split
  · exact reserve_mem 1 b _ i (by omega)
  · rfl

/-- The pre-append capacity check keeps the byte size a multiple of 64
(element width 1). -/
theorem boolStep_cap_dvd (b : MutableBuffer Nat) (rest : List Bool)
    (hb : 64 ∣ b.capacity) : 64 ∣ (boolStep b rest).capacity := by
  unfold boolStep
  split
  · have h := reserve_cap_dvd 1 b (1 + (rest.length + 7) / 8) (by norm_num) (by simpa using hb)
    simpa using h
  · exact hb

/-- Unfolding equation of the packing loop on the empty iterator: the byte in
progress received no bit, so nothing is appended. -/
theorem fromIterBoolLoop_nil (b : MutableBuffer Nat) : fromIterBoolLoop b [] = b := by
  rw [fromIterBoolLoop]
  simp

/-- Unfolding equation of the packing loop on a non-empty iterator. -/
theorem fromIterBoolLoop_cons (b : MutableBuffer Nat) (v : Bool) (t : List Bool) :
    fromIterBoolLoop b (v :: t) =
      if (v :: t : List Bool).length < 8
      then push_unchecked (boolStep b ((v :: t).drop 8)) (packByte ((v :: t).take 8) 1)
      else fromIterBoolLoop
             (push_unchecked (boolStep b ((v :: t).drop 8)) (packByte ((v :: t).take 8) 1))
             ((v :: t).drop 8) := by
  rw [fromIterBoolLoop]
  rw [dif_neg (by simp)]

/-- Master invariant of the bit-packing loop: starting from a buffer
satisfying `len <= capacity`, the loop appends exactly `ceil(remaining / 8)`
bytes, keeps `len <= capacity`, preserves the existing prefix, stores the
packed byte of the `j`-th remaining 8-chunk at offset `j`, and keeps the byte
size of the allocation a multiple of 64. -/
theorem fromIterBoolLoop_spec : ∀ (n : Nat) (bs : List Bool) (b : MutableBuffer Nat),
    bs.length ≤ n → b.len ≤ b.capacity →
    (fromIterBoolLoop b bs).len = b.len + (bs.length + 7) / 8 ∧
    (fromIterBoolLoop b bs).len ≤ (fromIterBoolLoop b bs).capacity ∧
    (∀ i, i < b.len → (fromIterBoolLoop b bs).mem i = b.mem i) ∧
    (∀ j, j < (bs.length + 7) / 8 →
        (fromIterBoolLoop b bs).mem (b.len + j) =
          some (packByte ((bs.drop (8 * j)).take 8) 1)) ∧
    (64 ∣ b.capacity → 64 ∣ (fromIterBoolLoop b bs).capacity) := by
  intro n
  induction n with
  | zero =>
    intro bs b hn hb
    have hbs : bs = [] := List.eq_nil_of_length_eq_zero (by omega)
    subst hbs
    rw [fromIterBoolLoop_nil]
    refine ⟨by simp, hb, fun i _ => rfl, fun j hj => by simp at hj, fun h => h⟩
  | succ n ih =>
    intro bs b hn hb
    cases bs with
    | nil =>
      rw [fromIterBoolLoop_nil]
      refine ⟨by simp, hb, fun i _ => rfl, fun j hj => by simp at hj, fun h => h⟩
    | cons v t =>
      rw [fromIterBoolLoop_cons]
      have hB1len : (boolStep b ((v :: t).drop 8)).len = b.len := boolStep_len b _
      have hB1cap : b.len + 1 ≤ (boolStep b ((v :: t).drop 8)).capacity := boolStep_cap_ge b _ hb
      have hB2len :
          (push_unchecked (boolStep b ((v :: t).drop 8)) (packByte ((v :: t).take 8) 1)).len =
            b.len + 1 := by
        show (boolStep b ((v :: t).drop 8)).len + 1 = b.len + 1
        rw [hB1len]
      have hB2cap :
          (push_unchecked (boolStep b ((v :: t).drop 8)) (packByte ((v :: t).take 8) 1)).capacity =
            (boolStep b ((v :: t).drop 8)).capacity := rfl
      have hB2mem_lt : ∀ i, i < b.len →
          (push_unchecked (boolStep b ((v :: t).drop 8)) (packByte ((v :: t).take 8) 1)).mem i =
            b.mem i := by
        intro i hi
        show writeAt (boolStep b ((v :: t).drop 8)).mem (boolStep b ((v :: t).drop 8)).len
          (packByte ((v :: t).take 8) 1) i = b.mem i
        unfold writeAt
        rw [if_neg (by rw [hB1len]; omega)]
        exact boolStep_mem b _ i hi hb
      have hB2mem_at :
          (push_unchecked (boolStep b ((v :: t).drop 8)) (packByte ((v :: t).take 8) 1)).mem b.len =
            some (packByte ((v :: t).take 8) 1) := by
        show writeAt (boolStep b ((v :: t).drop 8)).mem (boolStep b ((v :: t).drop 8)).len
          (packByte ((v :: t).take 8) 1) b.len = _
        unfold writeAt
        rw [if_pos (by rw [hB1len])]
      have hB2inv :
          (push_unchecked (boolStep b ((v :: t).drop 8)) (packByte ((v :: t).take 8) 1)).len ≤
          (push_unchecked (boolStep b ((v :: t).drop 8)) (packByte ((v :: t).take 8) 1)).capacity := by
        rw [hB2len, hB2cap]
        exact hB1cap
      have hB2dvd : 64 ∣ b.capacity →
          64 ∣ (push_unchecked (boolStep b ((v :: t).drop 8))
                  (packByte ((v :: t).take 8) 1)).capacity := by
        intro h
        rw [hB2cap]
        exact boolStep_cap_dvd b _ h
      by_cases h8 : (v :: t : List Bool).length < 8
      · rw [if_pos h8]
        have hone : ((v :: t : List Bool).length + 7) / 8 = 1 := by
          simp only [List.length_cons] at h8 ⊢
          omega
        refine ⟨by rw [hB2len, hone], hB2inv, hB2mem_lt, ?_, hB2dvd⟩
        intro j hj
        rw [hone] at hj
        have hj0 : j = 0 := by omega
        subst hj0
        rw [Nat.add_zero, Nat.mul_zero, List.drop_zero]
        exact hB2mem_at
      · rw [if_neg h8]
        have hrest : ((v :: t : List Bool).drop 8).length ≤ n := by
          simp only [List.length_drop, List.length_cons] at h8 hn ⊢
          omega
        obtain ⟨ih1, ih2, ih3, ih4, ih5⟩ :=
          ih ((v :: t).drop 8)
            (push_unchecked (boolStep b ((v :: t).drop 8)) (packByte ((v :: t).take 8) 1))
            hrest hB2inv
        refine ⟨?_, ih2, ?_, ?_, fun h => ih5 (hB2dvd h)⟩
        · rw [ih1, hB2len]
          simp only [List.length_drop, List.length_cons] at h8 ⊢
          omega
        · intro i hi
          rw [ih3 i (by rw [hB2len]; omega)]
          exact hB2mem_lt i hi
        · intro j hj
          cases j with
          | zero =>
            rw [Nat.add_zero, Nat.mul_zero, List.drop_zero]
            rw [ih3 b.len (by rw [hB2len]; omega)]
            exact hB2mem_at
          | succ j' =>
            have hj' : j' < (((v :: t : List Bool).drop 8).length + 7) / 8 := by
              simp only [List.length_drop, List.length_cons] at h8 hj ⊢
              omega
            have hstep := ih4 j' hj'
            rw [hB2len] at hstep
            rw [show b.len + (j' + 1) = b.len + 1 + j' from by omega]
            have hdd : ((v :: t).drop 8).drop (8 * j') = (v :: t).drop (8 * (j' + 1)) := by
              rw [List.drop_drop]
              congr 1
              omega
            rw [hstep, hdd]

end MutableBuffer

/-- The bit-packing example: the 9 booleans of the spec's test vector produce
the two bytes 13 and 1.  Derived from the loop invariant rather than raw
evaluation because the loop is defined by well-founded recursion. -/
theorem from_iter_bool_example :
    reads (from_iter_bool [true, false, true, true, false, false, false, false, true]) =
      [some 13, some 1] := by
  obtain ⟨g1, _, _, g4, _⟩ :=
    fromIterBoolLoop_spec 9 [true, false, true, true, false, false, false, false, true]
      (with_capacity Nat 1
        (([true, false, true, true, false, false, false, false, true].length + 7) / 8))
      (by decide) (Nat.zero_le _)
  have hlen : (from_iter_bool [true, false, true, true, false, false, false, false, true]).len
      = 2 := by
    show (fromIterBoolLoop (with_capacity Nat 1
      (([true, false, true, true, false, false, false, false, true].length + 7) / 8))
      [true, false, true, true, false, false, false, false, true]).len = 2
    rw [g1]
    decide
  have hm0 : (from_iter_bool [true, false, true, true, false, false, false, false, true]).mem 0
      = some 13 := by
    have h := g4 0 (by decide)
    rw [show (with_capacity Nat 1
      (([true, false, true, true, false, false, false, false, true].length + 7) / 8)).len + 0 = 0
      from by decide] at h
    exact h
  have hm1 : (from_iter_bool [true, false, true, true, false, false, false, false, true]).mem 1
      = some 1 := by
    have h := g4 1 (by decide)
    rw [show (with_capacity Nat 1
      (([true, false, true, true, false, false, false, false, true].length + 7) / 8)).len + 1 = 1
      from by decide] at h
    exact h
  show (List.range (from_iter_bool
    [true, false, true, true, false, false, false, false, true]).len).map
      (from_iter_bool [true, false, true, true, false, false, false, false, true]).mem =
    [some 13, some 1]
  rw [hlen, show List.range 2 = [0, 1] from rfl]
  simp only [List.map_cons, List.map_nil]
  rw [hm0, hm1]

/-- C8: bit-packing a boolean sequence of length `n` yields exactly
`ceil(n/8)` bytes, bit `i` of byte `j` is the `(8*j+i)`-th boolean
(least-significant-bit first; bits past the end of the sequence are zero), and
the 9-value test vector yields the bytes `[13, 1]`. -/
theorem c8_from_iter_bool_bitpacking (bs : List Bool) :
    (from_iter_bool bs).len = (bs.length + 7) / 8 ∧
    (∀ j i, j < (bs.length + 7) / 8 → i < 8 →
      ((from_iter_bool bs).mem j).getD 0 / 2 ^ i % 2 =
        if bs.getD (8 * j + i) false then 1 else 0) ∧
    reads (from_iter_bool [true, false, true, true, false, false, false, false, true]) =
      [some 13, some 1] := by
  obtain ⟨h1, _, _, h4, _⟩ :=
    fromIterBoolLoop_spec bs.length bs (with_capacity Nat 1 ((bs.length + 7) / 8))
      le_rfl (Nat.zero_le _)
  refine ⟨?_, ?_, from_iter_bool_example⟩
  · show (fromIterBoolLoop (with_capacity Nat 1 ((bs.length + 7) / 8)) bs).len =
      (bs.length + 7) / 8
    rw [h1]
    exact Nat.zero_add _
  · intro j i hj hi
    have hm := h4 j hj
    rw [show (with_capacity Nat 1 ((bs.length + 7) / 8)).len + j = j from Nat.zero_add j] at hm
    show ((fromIterBoolLoop (with_capacity Nat 1 ((bs.length + 7) / 8)) bs).mem j).getD 0 /
      2 ^ i % 2 = if bs.getD (8 * j + i) false then 1 else 0
    rw [hm, Option.getD_some, packByte_one_bit, getD_take _ 8 i _ hi, getD_drop]

/-- Witness for C8 at the 9-value test vector: bit 0 of byte 1 is set. -/
theorem c8_from_iter_bool_bitpacking_witness :
    (1 < (([true, false, true, true, false, false, false, false, true] : List Bool).length + 7) / 8
      ∧ 0 < 8) ∧
    ((from_iter_bool [true, false, true, true, false, false, false, false, true]).mem 1).getD 0 /
      2 ^ 0 % 2 = 1 := by
  refine ⟨⟨by decide, by decide⟩, ?_⟩
  have h := (c8_from_iter_bool_bitpacking
    [true, false, true, true, false, false, false, false, true]).2.1 1 0 (by decide) (by decide)
  rw [h]
  decide

/-- On an all-ok sequence, the collection loop succeeds with exactly the
payloads in order. -/
theorem collectOk_all_ok {E T : Type} : ∀ (xs : List (Except E T)),
    (∀ x ∈ xs, ∃ v, x = Except.ok v) →
    MutableBuffer.collectOk xs = Except.ok (xs.filterMap okPayload) ∧
    (xs.filterMap okPayload).length = xs.length := by
  intro xs
  induction xs with
  | nil => intro _; exact ⟨rfl, rfl⟩
  | cons x rest ih =>
    intro h
    obtain ⟨v, hv⟩ := h x (List.mem_cons_self x rest)
    subst hv
    obtain ⟨ih1, ih2⟩ := ih (fun y hy => h y (List.mem_cons_of_mem _ hy))
    constructor
    · show MutableBuffer.collectOk (Except.ok v :: rest) = _
      unfold MutableBuffer.collectOk
      rw [ih1]
      simp [okPayload, List.filterMap_cons]
    · simp [okPayload, List.filterMap_cons, ih2]

/-- When the sequence contains an error, the collection loop surfaces the
first one. -/
theorem collectOk_first_error {E T : Type} : ∀ (xs : List (Except E T)) (e : E),
    firstErr xs = some e → MutableBuffer.collectOk xs = Except.error e := by
  intro xs
  induction xs with
  | nil => intro e h; exact Option.noConfusion h
  | cons x rest ih =>
    intro e h
    cases x with
    | error e' =>
      have he : e' = e := by simpa [firstErr] using h
      subst he
      rfl
    | ok v =>
      have h' : firstErr rest = some e := by simpa [firstErr] using h
      show MutableBuffer.collectOk (Except.ok v :: rest) = Except.error e
      unfold MutableBuffer.collectOk
      rw [ih e h']

/-- A sequential write block leaves slots below its base untouched. -/
theorem writeSeq_lt {T : Type} : ∀ (xs : List T) (m : Nat → Option T) (base j : Nat),
    j < base → writeSeq m base xs j = m j := by
  intro xs
  induction xs with
  | nil => intro m base j _; rfl
  | cons x xs ih =>
    intro m base j h
    show writeSeq (writeAt m base x) (base + 1) xs j = m j
    rw [ih _ _ j (by omega)]
    unfold writeAt
    rw [if_neg (by omega)]

/-- Reading inside a sequential write block returns the written element. -/
theorem writeSeq_get {T : Type} : ∀ (xs : List T) (m : Nat → Option T) (base i : Nat),
    i < xs.length → writeSeq m base xs (base + i) = xs.get? i := by
  intro xs
  induction xs with
  | nil => intro m base i h; simp at h
  | cons x xs ih =>
    intro m base i h
    cases i with
    | zero =>
      show writeSeq (writeAt m base x) (base + 1) xs (base + 0) = some x
      rw [writeSeq_lt xs _ _ _ (by omega)]
      unfold writeAt
      rw [if_pos (by omega)]
    | succ i =>
      show writeSeq (writeAt m base x) (base + 1) xs (base + (i + 1)) = (x :: xs).get? (i + 1)
      rw [show base + (i + 1) = (base + 1) + i from by omega]
      exact ih _ _ i (by simpa using h)

/-- Mapping a pointwise read function over the index range reproduces the
written list. -/
theorem map_range_eq_map_some {T : Type} : ∀ (vs : List T) (f : Nat → Option T),
    (∀ i, i < vs.length → f i = vs.get? i) →
    (List.range vs.length).map f = vs.map some := by
  intro vs
  induction vs with
  | nil => intro f _; rfl
  | cons v vs ih =>
    intro f h
    show (List.range (vs.length + 1)).map f = some v :: vs.map some
    rw [List.range_succ_eq_map]
    simp only [List.map_cons, List.map_map]
    congr 1
    · simpa using h 0 (by simp)
    · exact ih (f ∘ Nat.succ) fun i hi => by
        simpa [Function.comp] using h (i + 1) (by simpa using Nat.succ_lt_succ hi)

/-- C9: for a trusted-length iterator of results (exact size hint `upper`),
`try_from_trusted_len_iter` returns `Ok` of a buffer holding exactly the
payloads in order (length `upper`) when every item is ok, and returns the
first error produced — handing no buffer to the caller — as soon as some item
fails. -/
theorem c9_try_from_trusted_len_iter_spec {E T : Type} (s upper : Nat)
    (xs : List (Except E T)) (h : xs.length = upper) :
    ((∀ x ∈ xs, ∃ v, x = Except.ok v) →
      ∃ b, try_from_trusted_len_iter s upper xs = some (Except.ok b) ∧
        b.len = upper ∧ reads b = (xs.filterMap okPayload).map some) ∧
    (∀ e, firstErr xs = some e →
      try_from_trusted_len_iter s upper xs = some (Except.error e)) := by
  constructor
  · intro hall
    obtain ⟨hc, hlen⟩ := collectOk_all_ok xs hall
    have hvu : (xs.filterMap okPayload).length = upper := by rw [hlen, h]
    refine ⟨{ mem := writeSeq (with_capacity T s upper).mem 0 (xs.filterMap okPayload)
              len := upper
              capacity := (with_capacity T s upper).capacity }, ?_, rfl, ?_⟩
    · unfold MutableBuffer.try_from_trusted_len_iter
      rw [hc]
      simp only [hvu, if_true]
    · show (List.range upper).map
        (writeSeq (with_capacity T s upper).mem 0 (xs.filterMap okPayload)) = _
      rw [← hvu]
      exact map_range_eq_map_some _ _ fun i hi => by
        simpa using writeSeq_get (xs.filterMap okPayload) (with_capacity T s upper).mem 0 i hi
  · intro e he
    unfold MutableBuffer.try_from_trusted_len_iter
    rw [collectOk_first_error xs e he]

/-- Witness for C9: a concrete sequence whose second item fails surfaces that
error. -/
theorem c9_try_from_trusted_len_iter_spec_witness :
    ([Except.ok (3 : Nat), Except.error "boom"].length = 2) ∧
    try_from_trusted_len_iter 4 2 [Except.ok (3 : Nat), Except.error "boom"] =
      some (Except.error "boom") := by
  refine ⟨rfl, ?_⟩
  exact (c9_try_from_trusted_len_iter_spec 4 2
    [Except.ok (3 : Nat), Except.error "boom"] rfl).2 "boom" rfl

namespace MutableBuffer

/-- The `push` operation keeps the byte size of the allocation a multiple of
64 (its capacity is the one produced by `reserve`). -/
theorem push_cap_dvd {T : Type} (s : Nat) (b : MutableBuffer T) (v : T) (hs : s ∣ 64)
    (hb : 64 ∣ b.capacity * s) : 64 ∣ (push s b v).capacity * s :=
  reserve_cap_dvd s b 1 hs hb

/-- Folding `push` over a list keeps the byte size a multiple of 64. -/
theorem foldl_push_cap_dvd {T : Type} (s : Nat) : ∀ (xs : List T) (b : MutableBuffer T),
    s ∣ 64 → 64 ∣ b.capacity * s →
    64 ∣ (xs.foldl (fun acc x => push s acc x) b).capacity * s := by
  intro xs
  induction xs with
  | nil => intro b _ hb; exact hb
  | cons x xs ih => intro b hs hb; exact ih (push s b x) hs (push_cap_dvd s b x hs hb)

/-- The generic extend path keeps the byte size a multiple of 64. -/
theorem extend_from_iter_cap_dvd {T : Type} (s : Nat) (b : MutableBuffer T)
    (lower : Nat) (xs : List T) (hs : s ∣ 64) (hb : 64 ∣ b.capacity * s) :
    64 ∣ (extend_from_iter s b lower xs).capacity * s := by
  unfold extend_from_iter
  exact foldl_push_cap_dvd s _ _ hs (reserve_cap_dvd s b lower hs hb)

/-- The `resize` operation keeps the byte size a multiple of 64. -/
theorem resize_cap_dvd {T : Type} (s : Nat) (b : MutableBuffer T) (n : Nat) (v : T)
    (hs : s ∣ 64) (hb : 64 ∣ b.capacity * s) : 64 ∣ (resize s b n v).capacity * s := by
  unfold resize
  split
  · exact reserve_cap_dvd s b (n - b.len) hs hb
  · exact hb

/-- The `extend_from_slice` operation keeps the byte size a multiple of 64. -/
theorem extend_from_slice_cap_dvd {T : Type} (s : Nat) (b : MutableBuffer T) (xs : List T)
    (hs : s ∣ 64) (hb : 64 ∣ b.capacity * s) :
    64 ∣ (extend_from_slice s b xs).capacity * s :=
  reserve_cap_dvd s b xs.length hs hb

/-- The `FromIterator` constructor produces a 64-byte-multiple allocation. -/
theorem from_iter_cap_dvd {T : Type} (s : Nat) (xs : List T) (hs : s ∣ 64) :
    64 ∣ (from_iter s xs).capacity * s := by
  cases xs with
  | nil =>
    have hz : (from_iter (T := T) s []).capacity = 0 := rfl
    rw [hz]
    simp
  | cons x rest =>
    exact extend_from_iter_cap_dvd s _ rest.length rest hs
      (with_capacity_cap_dvd T s (rest.length + 1))

/-- A buffer returned by `from_trusted_len_iter` carries the `with_capacity`
allocation and the declared length. -/
theorem from_trusted_len_iter_capacity {T : Type} (s upper : Nat) (xs : List T)
    (b : MutableBuffer T) (h : from_trusted_len_iter s upper xs = some b) :
    b.capacity = (with_capacity T s upper).capacity ∧ b.len = upper := by
  unfold from_trusted_len_iter at h
  split at h
  · injection h with h'
    subst h'
    exact ⟨rfl, rfl⟩
  · exact Option.noConfusion h

/-- A buffer returned by `try_from_trusted_len_iter` carries the
`with_capacity` allocation. -/
theorem try_from_trusted_len_iter_capacity {E T : Type} (s upper : Nat)
    (xs : List (Except E T)) (b : MutableBuffer T)
    (h : try_from_trusted_len_iter s upper xs = some (Except.ok b)) :
    b.capacity = (with_capacity T s upper).capacity := by
  unfold try_from_trusted_len_iter at h
  split at h
  · simp at h
  · split at h
    · injection h with h'
      injection h' with h''
      subst h''
      rfl
    · exact Option.noConfusion h

/-- A successful `set_len` never changes the capacity. -/
theorem set_len_some_capacity {T : Type} (b b' : MutableBuffer T) (n : Nat)
    (h : set_len b n = some b') : b'.capacity = b.capacity := by
  unfold set_len at h
  split at h
  · injection h with h'
    subst h'
    rfl
  · exact Option.noConfusion h

end MutableBuffer

/-- Every reachable buffer state has a 64-byte-multiple allocation, provided
the element width divides 64 (true of all arrow native types, whose widths
are 1, 2, 4, 8 bytes). -/
theorem reachable_cap_dvd : ∀ (s : Nat) (b : MutableBuffer Nat),
    Reachable s b → s ∣ 64 → 64 ∣ b.capacity * s := by
  intro s b hb
  induction hb with
  | new s =>
    intro _
    have hz : (MutableBuffer.new (T := Nat)).capacity = 0 := rfl
    rw [hz]
    simp
  | with_capacity s n => intro _; exact with_capacity_cap_dvd Nat s n
  | from_len_zeroed s n => intro hs; exact cmo64_cap_dvd s n hs
  | from_iter s xs => intro hs; exact from_iter_cap_dvd s xs hs
  | from_trusted s upper xs b h =>
    intro hs
    rw [(from_trusted_len_iter_capacity s upper xs b h).1]
    exact with_capacity_cap_dvd Nat s upper
  | try_from_trusted s upper xs b h =>
    intro hs
    rw [try_from_trusted_len_iter_capacity s upper xs b h]
    exact with_capacity_cap_dvd Nat s upper
  | from_iter_bool bs =>
    intro _
    rw [Nat.mul_one]
    exact (fromIterBoolLoop_spec bs.length bs _ le_rfl (Nat.zero_le _)).2.2.2.2
      (dvd_round_upto_multiple_of_64 _)
  | reserve s b a _ ih => intro hs; exact reserve_cap_dvd s b a hs (ih hs)
  | resize s b n v _ ih => intro hs; exact resize_cap_dvd s b n v hs (ih hs)
  | push s b v _ ih => intro hs; exact push_cap_dvd s b v hs (ih hs)
  | extend_from_slice s b xs _ ih =>
    intro hs
    exact extend_from_slice_cap_dvd s b xs hs (ih hs)
  | extend_from_iter s b lower xs _ ih =>
    intro hs
    exact extend_from_iter_cap_dvd s b lower xs hs (ih hs)
  | clear s b _ ih => intro hs; exact ih hs
  | set_len s b b' n _ hsl ih =>
    intro hs
    rw [set_len_some_capacity b b' n hsl]
    exact ih hs

/-- C4: for every element width dividing 64 (all arrow native types) and
every buffer reachable by any sequence of constructors and mutating
operations, the byte size of the allocation (`capacity * s`) is a multiple of
64; every constructor and every reallocation, including the
amortized-doubling branch, preserves this. -/
theorem c4_capacity_bytes_multiple_of_64 (s : Nat) (b : MutableBuffer Nat)
    (hs : s ∣ 64) (hb : Reachable s b) : 64 ∣ b.capacity * s :=
  reachable_cap_dvd s b hb hs

/-- Witness for C4: a concrete reachable `u32` buffer obtained by a push onto
a pre-sized buffer. -/
theorem c4_capacity_bytes_multiple_of_64_witness :
    ((4 : Nat) ∣ 64) ∧ 64 ∣ (push 4 (with_capacity Nat 4 5) 9).capacity * 4 :=
  ⟨by decide, c4_capacity_bytes_multiple_of_64 4 _ (by decide)
    (Reachable.push 4 _ 9 (Reachable.with_capacity 4 5))⟩

end Arrow2
